import Mathlib

/-!
Verification of the symbulate random-process core.

Shallow embedding of `random_processes.py`, `poisson_process.py` and the
non-plotting part of `results.py`.  Python's mutable state is passed
explicitly; the numpy global generator is a `Nat` state threaded through
draws; machine floats are modelled by `ℚ`; code that raises maps to
`Except PyErr`.
-/

/-- Errors raised by the embedded code. -/
inductive PyErr where
  | undefinedAtTime
  | invalidProcessValue
  | incompatibleSpace
  | typeError
  deriving DecidableEq

/-- External random-variable capability (random_variables.py supplies only
`probSpace` and `draw()`, which reads and advances the global numpy
generator state, here a `Nat`). -/
structure RVd where
  probSpace : Nat
  draw : Nat → ℚ × Nat

/-- A Python value that a process function can yield: `None`, a scalar, a
random variable, or anything else (tagged by a `Nat` so distinct foreign
objects exist). -/
inductive PVal where
  | pynone : PVal
  | scalar : ℚ → PVal
  | rv : RVd → PVal
  | other : Nat → PVal

/-- `utils.is_scalar`, restricted to the values a process function yields. -/
def is_scalar : PVal → Bool
  | .scalar _ => true
  | _ => false

/-- `isinstance(value, RV)` on an embedded value. -/
def PVal.isRV : PVal → Bool
  | .rv _ => true
  | _ => false

/-- `RandomProcess.__init__`: a probability space (structural tag), a
sampling frequency `fs`, and the process function `time_fun`. -/
structure RandomProcess where
  probSpace : Nat
  fs : ℚ
  time_fun : ℚ → PVal

/-- `RandomProcess.__getitem__`: returns `time_fun(t)` with no checks. -/
def getitem (X : RandomProcess) (t : ℚ) : PVal :=
  X.time_fun t

/-- `RandomProcess.__setitem__` in state-passing form: the returned process
is the state of `self` after the call.  The new `time_fun` returns `value`
at exactly `t` and defers to the captured prior function elsewhere; a value
that is neither a scalar nor an RV raises. -/
def setitem (X : RandomProcess) (t : ℚ) (v : PVal) : Except PyErr RandomProcess :=
  if v.isRV || is_scalar v then
    .ok { X with time_fun := fun s => if s = t then v else X.time_fun s }
  else
    .error .invalidProcessValue

/-- The closure `f` built inside `RandomProcess.draw`: it first re-seeds the
global generator (`np.random.seed(seed)`, discarding the incoming state),
then dispatches on `time_fun(t)`. -/
def draw_f (X : RandomProcess) (seed : Nat) (t : ℚ) (_g : Nat) :
    Except PyErr PVal × Nat :=
  match X.time_fun t with
  | .pynone => (.error .undefinedAtTime, seed)
  | .scalar c => (.ok (.scalar c), seed)
  | .rv R => ((.ok (.scalar (R.draw seed).1)), (R.draw seed).2)
  | .other _ => (.error .invalidProcessValue, seed)

/-- `np.random.randint(bound)` on the global generator, modelled abstractly
(numpy is external): some deterministic value below the bound, advancing the
state. -/
def randint (g : Nat) (bound : Nat) : Nat × Nat :=
  (g % bound, g + 1)

/-- `RandomProcess.draw`: picks one integer seed from the global generator,
then returns the sampling closure capturing that seed. -/
def RandomProcess.draw (X : RandomProcess) (g : Nat) :
    (ℚ → Nat → Except PyErr PVal × Nat) × Nat :=
  ((draw_f X (randint g 1000000000).1), (randint g 1000000000).2)

/-- The right operand of an algebraic combination: a scalar, a bare RV, or
another process. -/
inductive Operand where
  | scalar (c : ℚ)
  | rv (R : RVd)
  | process (Y : RandomProcess)

/-- Modelled from the spec: `ProbabilitySpace.check_same`
(probability_space.py is not under src/).  Two spaces are compatible iff
structurally identical; otherwise combining fails with
`IncompatibleSpaceError`. -/
def checkSameSpace (a b : Nat) : Except PyErr Unit :=
  if a = b then .ok () else .error .incompatibleSpace

/-- `RandomProcess.check_same_probSpace`: scalars are always accepted,
otherwise the other operand's space is compared with `self`'s. -/
def check_same_probSpace (X : RandomProcess) : Operand → Except PyErr Unit
  | .scalar _ => .ok ()
  | .rv R => checkSameSpace X.probSpace R.probSpace
  | .process Y => checkSameSpace X.probSpace Y.probSpace

/-- `RandomProcess._operation_factory(op)` applied to `(self, other)`:
checks space compatibility, then builds the pointwise-combined process. -/
def op_fun (op : PVal → PVal → PVal) (X : RandomProcess) (o : Operand) :
    Except PyErr RandomProcess :=
  match check_same_probSpace X o with
  | .error e => .error e
  | .ok _ =>
    match o with
    | .scalar c => .ok ⟨X.probSpace, X.fs, fun t => op (X.time_fun t) (.scalar c)⟩
    | .rv R => .ok ⟨X.probSpace, X.fs, fun t => op (X.time_fun t) (.rv R)⟩
    | .process Y => .ok ⟨X.probSpace, X.fs, fun t => op (X.time_fun t) (Y.time_fun t)⟩

/-- Python `+` on embedded values: scalar addition, RV combination building
a derived RV, and anything else a foreign object (a `TypeError` in
Python). -/
def pvalAdd : PVal → PVal → PVal
  | .scalar a, .scalar b => .scalar (a + b)
  | .scalar a, .rv S => .rv ⟨S.probSpace, fun g => ((a + (S.draw g).1), (S.draw g).2)⟩
  | .rv R, .scalar b => .rv ⟨R.probSpace, fun g => (((R.draw g).1 + b), (R.draw g).2)⟩
  | .rv R, .rv S =>
      .rv ⟨R.probSpace, fun g =>
        (((R.draw g).1 + (S.draw (R.draw g).2).1), (S.draw (R.draw g).2).2)⟩
  | _, _ => .other 0

/-- `RandomProcess.__add__`: the operation factory instantiated with `+`. -/
def RandomProcess.add (X : RandomProcess) (o : Operand) : Except PyErr RandomProcess :=
  op_fun pvalAdd X o

/-- Claim C1: for a scalar-or-RV value `v` and any time `t`, the override
operation yields a process whose function returns `v` at exactly `t` and
defers to the prior function at every other time, leaving the probability
space and sampling frequency unchanged. -/
theorem setitem_overrides (X : RandomProcess) (t : ℚ) (v : PVal)
    (hv : is_scalar v = true ∨ v.isRV = true) :
    ∃ X', setitem X t v = .ok X' ∧
      getitem X' t = v ∧
      (∀ s, s ≠ t → getitem X' s = getitem X s) ∧
      X'.probSpace = X.probSpace ∧ X'.fs = X.fs := by
  have hb : (v.isRV || is_scalar v) = true := by
    rcases hv with h | h <;> simp [h]
  refine ⟨{ X with time_fun := fun s => if s = t then v else X.time_fun s }, ?_, ?_, ?_, rfl, rfl⟩
  · simp [setitem, hb]
  · simp [getitem]
  · intro s hs
    simp [getitem, hs]

/-- Witness for C1 at a concrete process, time and scalar value. -/
theorem setitem_overrides_witness :
    (is_scalar (.scalar 3) = true ∨ (PVal.scalar 3).isRV = true) ∧
    ∃ X', setitem ⟨0, 1, fun _ => PVal.pynone⟩ 2 (.scalar 3) = .ok X' ∧
      getitem X' 2 = .scalar 3 ∧
      (∀ s, s ≠ 2 → getitem X' s = getitem ⟨0, 1, fun _ => PVal.pynone⟩ s) ∧
      X'.probSpace = 0 ∧ X'.fs = 1 :=
  ⟨Or.inl rfl, setitem_overrides ⟨0, 1, fun _ => PVal.pynone⟩ 2 (.scalar 3) (Or.inl rfl)⟩

/-- Claim C2: overrides at distinct times compose without interference, and
for two overrides at the same time the later one wins. -/
theorem setitem_compose (X : RandomProcess) (t1 t2 : ℚ) (v1 v2 : PVal)
    (h1 : is_scalar v1 = true ∨ v1.isRV = true)
    (h2 : is_scalar v2 = true ∨ v2.isRV = true) :
    ∃ X1 X2, setitem X t1 v1 = .ok X1 ∧ setitem X1 t2 v2 = .ok X2 ∧
      (t1 ≠ t2 → getitem X2 t1 = v1 ∧ getitem X2 t2 = v2) ∧
      (t1 = t2 → getitem X2 t1 = v2) := by
  have hb1 : (v1.isRV || is_scalar v1) = true := by
    rcases h1 with h | h <;> simp [h]
  have hb2 : (v2.isRV || is_scalar v2) = true := by
    rcases h2 with h | h <;> simp [h]
  refine ⟨{ X with time_fun := fun s => if s = t1 then v1 else X.time_fun s },
    { X with time_fun := fun s =>
        if s = t2 then v2 else if s = t1 then v1 else X.time_fun s },
    by simp [setitem, hb1], by simp [setitem, hb2], ?_, ?_⟩
  · intro hne
    constructor
    · simp [getitem, hne]
    · simp [getitem]
  · intro heq
    simp [getitem, heq]

/-- Witness for C2 at concrete distinct times and equal times. -/
theorem setitem_compose_witness :
    ∃ X1 X2, setitem ⟨0, 1, fun _ => PVal.pynone⟩ 2 (.scalar 3) = .ok X1 ∧
      setitem X1 5 (.scalar 4) = .ok X2 ∧
      ((2 : ℚ) ≠ 5 → getitem X2 2 = .scalar 3 ∧ getitem X2 5 = .scalar 4) ∧
      ((2 : ℚ) = 5 → getitem X2 2 = .scalar 4) :=
  setitem_compose ⟨0, 1, fun _ => PVal.pynone⟩ 2 5 (.scalar 3) (.scalar 4)
    (Or.inl rfl) (Or.inl rfl)

/-- Claim C3: adding two processes over the same probability space succeeds
and is pointwise — the combined function at any `t` is the value-level sum
of the two functions at `t`; over different spaces the combination fails
with `IncompatibleSpaceError`. -/
theorem add_pointwise (X Y : RandomProcess) :
    (X.probSpace = Y.probSpace →
      ∃ Z, RandomProcess.add X (.process Y) = .ok Z ∧
        Z.probSpace = X.probSpace ∧
        ∀ t, getitem Z t = pvalAdd (getitem X t) (getitem Y t)) ∧
    (X.probSpace ≠ Y.probSpace →
      RandomProcess.add X (.process Y) = .error .incompatibleSpace) := by
  constructor
  · intro h
    refine ⟨⟨X.probSpace, X.fs, fun t => pvalAdd (X.time_fun t) (Y.time_fun t)⟩, ?_, rfl, ?_⟩
    · simp [RandomProcess.add, op_fun, check_same_probSpace, checkSameSpace, h]
    · intro t
      simp [getitem]
  · intro h
    simp [RandomProcess.add, op_fun, check_same_probSpace, checkSameSpace, h]

/-- Witness for C3: a compatible pair of concrete processes, and an
incompatible pair. -/
theorem add_pointwise_witness :
    (∃ Z, RandomProcess.add ⟨7, 1, fun _ => PVal.scalar 1⟩
        (.process ⟨7, 1, fun _ => PVal.scalar 2⟩) = .ok Z ∧
      Z.probSpace = 7 ∧
      ∀ t, getitem Z t = pvalAdd (getitem ⟨7, 1, fun _ => PVal.scalar 1⟩ t)
        (getitem ⟨7, 1, fun _ => PVal.scalar 2⟩ t)) ∧
    RandomProcess.add ⟨7, 1, fun _ => PVal.scalar 1⟩
        (.process ⟨8, 1, fun _ => PVal.scalar 2⟩) = .error .incompatibleSpace :=
  ⟨(add_pointwise ⟨7, 1, fun _ => PVal.scalar 1⟩ ⟨7, 1, fun _ => PVal.scalar 2⟩).1 rfl,
   (add_pointwise ⟨7, 1, fun _ => PVal.scalar 1⟩ ⟨8, 1, fun _ => PVal.scalar 2⟩).2
     (by decide)⟩

/-- Claim C4: `draw` fixes a single seed and returns the closure built from
it, and that closure's value at any time is independent of the incoming
generator state (the seed is re-applied before every evaluation), so a
second evaluation at the same `t` — in particular one running on the state
the first evaluation left behind — returns the identical value. -/
theorem draw_closure_deterministic (X : RandomProcess) (g : Nat) :
    (∃ seed g2, X.draw g = (draw_f X seed, g2)) ∧
    (∀ seed t g1 g2, (draw_f X seed t g1).1 = (draw_f X seed t g2).1) ∧
    (∀ seed t g0, (draw_f X seed t (draw_f X seed t g0).2).1 =
      (draw_f X seed t g0).1) := by
  refine ⟨⟨(randint g 1000000000).1, (randint g 1000000000).2, rfl⟩, ?_, ?_⟩
  · intro seed t g1 g2
    rfl
  · intro seed t g0
    rfl

/-- Claim C5 (amended): the drawn closure fails with the undefined-at-time
error exactly when the process function yields `None`, fails with the
invalid-value error exactly when it yields a non-`None` value that is
neither a scalar nor an RV, returns a scalar value itself, and returns a
fresh draw (not the RV) when the value is an RV; plain indexing returns the
function's value with no checks. -/
theorem draw_f_cases (X : RandomProcess) (seed : Nat) (t : ℚ) (g : Nat) :
    ((draw_f X seed t g).1 = .error .undefinedAtTime ↔ X.time_fun t = .pynone) ∧
    ((draw_f X seed t g).1 = .error .invalidProcessValue ↔
      ∃ k, X.time_fun t = .other k) ∧
    (∀ c, X.time_fun t = .scalar c → (draw_f X seed t g).1 = .ok (.scalar c)) ∧
    (∀ R, X.time_fun t = .rv R →
      (draw_f X seed t g).1 = .ok (.scalar (R.draw seed).1)) ∧
    getitem X t = X.time_fun t := by
  refine ⟨?_, ?_, ?_, ?_, rfl⟩
  · cases h : X.time_fun t <;> simp [draw_f, h]
  · cases h : X.time_fun t <;> simp [draw_f, h]
  · intro c h
    simp [draw_f, h]
  · intro R h
    simp [draw_f, h]

/-- Witness for C5's amended theorem at a concrete process whose function
yields a scalar. -/
theorem draw_f_cases_witness :
    (draw_f ⟨0, 1, fun _ => PVal.scalar 5⟩ 0 0 0).1 = .ok (.scalar 5) :=
  (draw_f_cases ⟨0, 1, fun _ => PVal.scalar 5⟩ 0 0 0).2.2.1 5 rfl

/-- A concrete external RV that always draws the value 7. -/
def cexRV : RVd := ⟨0, fun g => (7, g)⟩

/-- A concrete process whose function yields the RV `cexRV` at every time. -/
def cexProc : RandomProcess := ⟨0, 1, fun _ => .rv cexRV⟩

/-- Counterexample to claim C5 as stated: at a time where the process
function yields an RV, evaluating the drawn closure does not return the
process function's value (it returns a draw from the RV instead). -/
theorem draw_f_not_time_fun_value :
    (cexProc.time_fun 0).isRV = true ∧
    (draw_f cexProc 0 0 0).1 ≠ .ok (cexProc.time_fun 0) := by
  constructor
  · rfl
  · intro h
    simp [draw_f, cexProc, cexRV] at h

/-- Cumulative sum of the first `n` inter-arrival times `x[0] + ... + x[n-1]`
(`total_time` after `n` loop iterations). -/
def cumsum (x : Nat → ℚ) : Nat → ℚ
  | 0 => 0
  | n + 1 => cumsum x n + x n

/-- The `while True` loop of `PoissonProcess.__init__`'s `fun`, with explicit
fuel since the source loop has no bound: state is the arrival index `n` and
the running `total_time`; each step adds `x[n]`, breaks returning `n` once
the total exceeds `t`, and otherwise increments `n`. -/
def poissonLoop (x : Nat → ℚ) (t : ℚ) : Nat → Nat → ℚ → Option Nat
  | 0, _, _ => none
  | fuel + 1, n, total =>
    if t < total + x n then some n
    else poissonLoop x t fuel (n + 1) (total + x n)

/-- `PoissonProcess` count function `fun(x, t)` run from the initial state
`n = 0`, `total_time = 0`, with the given fuel. -/
def poissonFun (x : Nat → ℚ) (t : ℚ) (fuel : Nat) : Option Nat :=
  poissonLoop x t fuel 0 0

theorem cumsum_strictMono (x : Nat → ℚ) (hx : ∀ i, 0 < x i) :
    StrictMono (cumsum x) :=
  strictMono_nat_of_lt_succ fun n => by
    simpa [cumsum] using hx n

theorem poissonLoop_some (x : Nat → ℚ) (t : ℚ) :
    ∀ fuel n m, poissonLoop x t fuel n (cumsum x n) = some m →
      n ≤ m ∧ t < cumsum x (m + 1) ∧ ∀ k, n ≤ k → k < m → cumsum x (k + 1) ≤ t := by
  intro fuel
  induction fuel with
  | zero => intro n m h; simp [poissonLoop] at h
  | succ fuel ih =>
    intro n m h
    rw [poissonLoop] at h
    by_cases hgt : t < cumsum x n + x n
    · rw [if_pos hgt] at h
      obtain rfl : n = m := by simpa using h
      refine ⟨le_refl n, by simpa [cumsum] using hgt, ?_⟩
      intro k h1 h2
      omega
    · rw [if_neg hgt] at h
      have hstep : cumsum x n + x n = cumsum x (n + 1) := by simp [cumsum]
      rw [hstep] at h
      obtain ⟨hm, hgt2, hk⟩ := ih (n + 1) m h
      refine ⟨by omega, hgt2, ?_⟩
      intro k h1 h2
      rcases Nat.eq_or_lt_of_le h1 with rfl | hlt
      · simpa [cumsum] using le_of_not_lt hgt
      · exact hk k hlt h2

theorem poissonLoop_reaches (x : Nat → ℚ) (t : ℚ) :
    ∀ d n, (∀ k, n ≤ k → k < n + d → cumsum x (k + 1) ≤ t) →
      t < cumsum x (n + d + 1) →
      poissonLoop x t (d + 1) n (cumsum x n) = some (n + d) := by
  intro d
  induction d with
  | zero =>
    intro n _ hgt
    rw [poissonLoop]
    have hstep : cumsum x n + x n = cumsum x (n + 1) := by simp [cumsum]
    rw [hstep, if_pos (by simpa using hgt)]
    simp
  | succ d ih =>
    intro n hk hgt
    rw [poissonLoop]
    have hstep : cumsum x n + x n = cumsum x (n + 1) := by simp [cumsum]
    have hle : cumsum x (n + 1) ≤ t := hk n (le_refl n) (by omega)
    rw [hstep, if_neg (by simpa using not_lt.mpr hle)]
    have h2 := ih (n + 1) (fun k h1 h2 => hk k (by omega) (by omega))
      (by have : n + 1 + d + 1 = n + (d + 1) + 1 := by omega
          rw [this]; exact hgt)
    have harith : n + 1 + d = n + (d + 1) := by omega
    rw [harith] at h2
    exact h2

theorem poissonLoop_none_of_bounded (x : Nat → ℚ) (t : ℚ)
    (hall : ∀ m, cumsum x m ≤ t) :
    ∀ fuel n, poissonLoop x t fuel n (cumsum x n) = none := by
  intro fuel
  induction fuel with
  | zero => intro n; rfl
  | succ fuel ih =>
    intro n
    rw [poissonLoop]
    have hstep : cumsum x n + x n = cumsum x (n + 1) := by simp [cumsum]
    rw [hstep, if_neg (not_lt.mpr (hall (n + 1)))]
    exact ih (n + 1)

/-- Claim C6: with strictly positive inter-arrival times and a nonnegative
query time, whenever the counting loop returns a count `n`, that `n` is the
largest index whose cumulative inter-arrival sum is at most `t`; the count
is `0` when `t = 0`, and counts are non-decreasing in `t`. -/
theorem poisson_count_correct (x : Nat → ℚ) (t : ℚ) (fuel n : Nat)
    (hx : ∀ i, 0 < x i) (ht : 0 ≤ t) (h : poissonFun x t fuel = some n) :
    (cumsum x n ≤ t ∧ ∀ m, cumsum x m ≤ t → m ≤ n) ∧
    (t = 0 → n = 0) ∧
    (∀ t2 fuel2 n2, t ≤ t2 → poissonFun x t2 fuel2 = some n2 → n ≤ n2) := by
  have hmono := cumsum_strictMono x hx
  have h0 : cumsum x 0 = 0 := rfl
  have hrun := poissonLoop_some x t fuel 0 n (by rw [h0]; exact h)
  obtain ⟨-, hgt, hk⟩ := hrun
  have hlen : cumsum x n ≤ t := by
    cases n with
    | zero => rw [h0]; exact ht
    | succ k => exact hk k (Nat.zero_le k) (Nat.lt_succ_self k)
  have hlargest : ∀ m, cumsum x m ≤ t → m ≤ n := by
    intro m hm
    by_contra hcon
    have h1 : n + 1 ≤ m := by omega
    have h2 : cumsum x (n + 1) ≤ cumsum x m := hmono.monotone h1
    linarith
  refine ⟨⟨hlen, hlargest⟩, ?_, ?_⟩
  · intro ht0
    by_contra hn0
    have h1 : (1 : Nat) ≤ n := by omega
    have h2 : cumsum x 1 ≤ cumsum x n := hmono.monotone h1
    have h3 : cumsum x 1 = x 0 := by simp [cumsum]
    have := hx 0
    rw [ht0] at hlen
    linarith
  · intro t2 fuel2 n2 hle h2
    obtain ⟨-, hgt2, hk2⟩ := poissonLoop_some x t2 fuel2 0 n2 (by rw [h0]; exact h2)
    by_contra hcon
    have h1 : n2 + 1 ≤ n := by omega
    have h3 : cumsum x (n2 + 1) ≤ cumsum x n := hmono.monotone h1
    linarith

/-- Witness for C6: unit inter-arrival times, query time 2, count 2. -/
theorem poisson_count_correct_witness :
    (cumsum (fun _ => (1 : ℚ)) 2 ≤ 2 ∧ ∀ m, cumsum (fun _ => (1 : ℚ)) m ≤ 2 → m ≤ 2) ∧
    ((2 : ℚ) = 0 → 2 = 0) ∧
    (∀ t2 fuel2 n2, (2 : ℚ) ≤ t2 →
      poissonFun (fun _ => (1 : ℚ)) t2 fuel2 = some n2 → 2 ≤ n2) :=
  poisson_count_correct (fun _ => 1) 2 5 2 (fun _ => one_pos) (by norm_num)
    (by norm_num [poissonFun, poissonLoop])

/-- A strictly positive inter-arrival sequence whose total stays below 1:
`x[i] = (1/2)^(i+1)`. -/
def geomX (i : Nat) : ℚ := (1 / 2) ^ (i + 1)

theorem geomX_pos (i : Nat) : 0 < geomX i := by
  unfold geomX
  positivity

theorem cumsum_geomX (m : Nat) : cumsum geomX m = 1 - (1 / 2) ^ m := by
  induction m with
  | zero => simp [cumsum]
  | succ m ih =>
    rw [cumsum, ih, geomX, pow_succ]
    ring

/-- Counterexample to claim C7 as stated: for a strictly positive
inter-arrival sequence and the finite query time 1, the counting loop never
terminates — no amount of fuel makes it return. -/
theorem poisson_nontermination_cex :
    (∀ i, 0 < geomX i) ∧ ∀ fuel, poissonFun geomX 1 fuel = none := by
  refine ⟨geomX_pos, ?_⟩
  intro fuel
  have hall : ∀ m, cumsum geomX m ≤ 1 := by
    intro m
    rw [cumsum_geomX]
    have : (0 : ℚ) ≤ (1 / 2) ^ m := by positivity
    linarith
  have h := poissonLoop_none_of_bounded geomX 1 hall fuel 0
  simpa [poissonFun, cumsum] using h

/-- Claim C7 (amended): for every query time `t` and inter-arrival sequence
`x`, the counting loop terminates (for some fuel) exactly when some partial
sum of the inter-arrival times exceeds `t`; strict positivity alone does not
guarantee this, and the implementation has no search bound. -/
theorem poisson_terminates_iff (x : Nat → ℚ) (t : ℚ) :
    (∃ fuel n, poissonFun x t fuel = some n) ↔ ∃ m, t < cumsum x (m + 1) := by
  constructor
  · rintro ⟨fuel, n, h⟩
    have h0 : cumsum x 0 = 0 := rfl
    obtain ⟨-, hgt, -⟩ := poissonLoop_some x t fuel 0 n (by rw [h0]; exact h)
    exact ⟨n, hgt⟩
  · intro h
    have hfind := Nat.find_spec h
    have hmin : ∀ k, k < Nat.find h → cumsum x (k + 1) ≤ t := fun k hk =>
      not_lt.mp (Nat.find_min h hk)
    have hreach := poissonLoop_reaches x t (Nat.find h) 0
      (fun k h1 h2 => hmin k (by omega)) (by simpa using hfind)
    refine ⟨Nat.find h + 1, Nat.find h, ?_⟩
    have h0 : cumsum x 0 = 0 := rfl
    rw [h0] at hreach
    simpa [poissonFun] using hreach

/-- Witness for C7's amended theorem: with unit inter-arrival times and
query time 2, some partial sum exceeds 2, hence the loop terminates. -/
theorem poisson_terminates_iff_witness :
    ∃ fuel n, poissonFun (fun _ => (1 : ℚ)) 2 fuel = some n :=
  (poisson_terminates_iff (fun _ => 1) 2).mpr
    ⟨2, by norm_num [cumsum]⟩

/-- The concrete ensemble classes of results.py: `Results`, `RVResults`,
`RandomProcessResults`. -/
inductive EKind where
  | base
  | rvk
  | rpk
  deriving DecidableEq

/-- An ensemble value: its concrete class, its stored realizations in draw
order, and (for `RandomProcessResults` only) the `timeIndex`. -/
structure Ens (α : Type) where
  kind : EKind
  elems : List α
  timeIndex : Option ℚ

/-- The call `type(self)(results)` performed by `Results.apply` and
`Results.filter`: `Results.__init__` (inherited by `RVResults`) appends each
element in order; `RandomProcessResults.__init__` takes a second required
`timeIndex` argument, so this one-argument call raises `TypeError` before
any element is stored. -/
def constructSameType {α : Type} (k : EKind) (res : List α) : Except PyErr (Ens α) :=
  match k with
  | .rpk => .error .typeError
  | .base => .ok ⟨.base, res, none⟩
  | .rvk => .ok ⟨.rvk, res, none⟩

/-- `Results.apply(fun)`: applies `fun` to each outcome in order and rebuilds
an ensemble through the concrete class constructor. -/
def Ens.apply {α β : Type} (E : Ens α) (f : α → β) : Except PyErr (Ens β) :=
  constructSameType E.kind (E.elems.map f)

/-- Claim C8, evaluated on the code: mapping over a base `Results` or an
`RVResults` ensemble rebuilds a same-kind ensemble with the function applied
elementwise in order, but on a `RandomProcessResults` ensemble (here one
sample path, timeIndex 1, identity function) it raises `TypeError` instead
of producing a mapped ensemble of the same subtype. -/
theorem apply_rp_typeerror :
    Ens.apply ⟨.rpk, [(0 : ℚ)], some 1⟩ (fun a => a) = .error .typeError ∧
    Ens.apply ⟨.rvk, [(0 : ℚ), 2], none⟩ (fun a => a + 1) = .ok ⟨.rvk, [1, 3], none⟩ ∧
    Ens.apply ⟨.base, [(0 : ℚ), 2], none⟩ (fun a => a + 1) = .ok ⟨.base, [1, 3], none⟩ := by
  refine ⟨rfl, ?_, ?_⟩ <;> norm_num [Ens.apply, constructSameType]

/-- An element of a simulation, as `Results._get_counts` classifies it: a
hashable scalar, a list of hashable items, or an unhashable object
identified by its string representation. -/
inductive Elem where
  | atom (z : ℤ)
  | lst (l : List ℤ)
  | weird (n : Nat)
  deriving DecidableEq

/-- The dictionary key `_get_counts` files an element under: the element
itself when hashable, the tuple conversion of a hashable-item list, or the
string representation otherwise. -/
inductive CKey where
  | katom (z : ℤ)
  | ktup (l : List ℤ)
  | kstr (n : Nat)
  deriving DecidableEq

/-- The `y` computed from `x` in `Results._get_counts`. -/
def keyOf : Elem → CKey
  | .atom z => .katom z
  | .lst l => .ktup l
  | .weird n => .kstr n

/-- One `counts[y] += 1 / counts[y] = 1` step on an insertion-ordered
dictionary represented as an association list. -/
def bump (c : List (CKey × Nat)) (k : CKey) : List (CKey × Nat) :=
  match c with
  | [] => [(k, 1)]
  | (k', n) :: rest => if k' = k then (k', n + 1) :: rest else (k', n) :: bump rest k

/-- `Results._get_counts`: one dictionary pass over the realizations. -/
def get_counts (xs : List Elem) : List (CKey × Nat) :=
  xs.foldl (fun c x => bump c (keyOf x)) []

/-- Modelled from the spec: the `Table` constructor (table.py is not under
src/) adds a zero-count entry for every supplied outcome absent from the
counts, keeping existing entries. -/
def addZeros (c : List (CKey × Nat)) (os : List CKey) : List (CKey × Nat) :=
  os.foldl (fun c o => if c.any (fun p => p.1 = o) then c else c ++ [(o, 0)]) c

/-- `Results.tabulate`: builds the table from the counts and the optional
outcome list; with `normalize` the counts are divided by `len(self)`
(`table / len(self)`, modelled from the spec since table.py is not under
src/). -/
def Results.tabulate (xs : List Elem) (outcomes : Option (List CKey))
    (normalize : Bool) : List (CKey × ℚ) :=
  let tb := addZeros (get_counts xs) (outcomes.getD [])
  if normalize then tb.map (fun p => (p.1, (p.2 : ℚ) / xs.length))
  else tb.map (fun p => (p.1, (p.2 : ℚ)))

theorem bump_sum (c : List (CKey × Nat)) (k : CKey) :
    ((bump c k).map Prod.snd).sum = (c.map Prod.snd).sum + 1 := by
  induction c with
  | nil => simp [bump]
  | cons p rest ih =>
    obtain ⟨k', n⟩ := p
    by_cases h : k' = k
    · simp [bump, h]
      omega
    · simp [bump, h, ih]
      omega

theorem get_counts_sum (xs : List Elem) :
    ((get_counts xs).map Prod.snd).sum = xs.length := by
  suffices h : ∀ c : List (CKey × Nat),
      ((xs.foldl (fun c x => bump c (keyOf x)) c).map Prod.snd).sum =
        (c.map Prod.snd).sum + xs.length by
    simpa [get_counts] using h []
  induction xs with
  | nil => intro c; simp
  | cons x xs ih =>
    intro c
    simp only [List.foldl_cons, ih, bump_sum, List.length_cons]
    omega

theorem addZeros_sum (os : List CKey) :
    ∀ c : List (CKey × Nat),
      ((addZeros c os).map Prod.snd).sum = (c.map Prod.snd).sum := by
  induction os with
  | nil => intro c; simp [addZeros]
  | cons o os ih =>
    intro c
    by_cases h : c.any (fun p => p.1 = o)
    · simp [addZeros, h]
      simpa [addZeros] using ih c
    · have := ih (c ++ [(o, 0)])
      simp [addZeros, h] at this ⊢
      simpa using this

theorem sum_map_cast_div (l : List (CKey × Nat)) (q : ℚ) :
    ((l.map fun p => ((p.2 : ℚ) / q)).sum) = ((l.map Prod.snd).sum : ℚ) / q := by
  induction l with
  | nil => simp
  | cons p rest ih =>
    simp [ih, add_div]

/-- Claim C9: for a non-empty ensemble, the normalized frequency table's
values sum to exactly 1, also when an explicit outcome list adds zero-count
entries. -/
theorem tabulate_normalized_sums_to_one (xs : List Elem)
    (outcomes : Option (List CKey)) (h : xs ≠ []) :
    ((Results.tabulate xs outcomes true).map Prod.snd).sum = 1 := by
  have hl : xs.length ≠ 0 := by
    simpa [List.length_eq_zero] using h
  have hn : (xs.length : ℚ) ≠ 0 := Nat.cast_ne_zero.mpr hl
  have hmap : (Results.tabulate xs outcomes true).map Prod.snd =
      (addZeros (get_counts xs) (outcomes.getD [])).map
        (fun p => ((p.2 : ℚ) / xs.length)) := by
    simp [Results.tabulate, List.map_map]
  rw [hmap, sum_map_cast_div, addZeros_sum, get_counts_sum]
  exact div_self hn

/-- Witness for C9: three realizations (two equal atoms and a list) with an
extra zero-count outcome. -/
theorem tabulate_normalized_witness :
    ([Elem.atom 0, Elem.atom 0, Elem.lst [1]] ≠ ([] : List Elem)) ∧
    ((Results.tabulate [Elem.atom 0, Elem.atom 0, Elem.lst [1]]
      (some [CKey.katom 5]) true).map Prod.snd).sum = 1 :=
  ⟨by simp, tabulate_normalized_sums_to_one _ (some [CKey.katom 5]) (by simp)⟩

/-- The `for j, x in enumerate(self): if j == i: return x` loop of
`Results.get`, with the running enumeration index `j`; falling off the end
returns Python `None`. -/
def Results.getAux {α : Type} : List α → ℤ → ℤ → Option α
  | [], _, _ => none
  | x :: rest, j, i => if j = i then some x else Results.getAux rest (j + 1) i

/-- `Results.get(i)`: the enumeration starts at index 0. -/
def Results.get {α : Type} (xs : List α) (i : ℤ) : Option α :=
  Results.getAux xs 0 i

theorem results_getAux_spec {α : Type} :
    ∀ (xs : List α) (j i : ℤ), Results.getAux xs j i =
      if j ≤ i ∧ i < j + xs.length then xs.get? (i - j).toNat else none := by
  intro xs
  induction xs with
  | nil =>
    intro j i
    rw [Results.getAux, if_neg]
    rintro ⟨h1, h2⟩
    simp at h2
    omega
  | cons x rest ih =>
    intro j i
    rw [Results.getAux]
    have hlen : ((x :: rest).length : ℤ) = (rest.length : ℤ) + 1 := by
      simp
    by_cases hji : j = i
    · subst hji
      rw [if_pos rfl, if_pos]
      · simp
      · refine ⟨le_refl j, ?_⟩
        rw [hlen]
        omega
    · rw [if_neg hji, ih (j + 1) i]
      by_cases hc : j + 1 ≤ i ∧ i < j + 1 + rest.length
      · rw [if_pos hc, if_pos (by rw [hlen]; omega)]
        have h1 : (i - j).toNat = (i - (j + 1)).toNat + 1 := by omega
        rw [h1]
        simp
      · rw [if_neg hc, if_neg]
        intro hc2
        apply hc
        rw [hlen] at hc2
        omega

/-- Claim C10: `Results.get(i)` returns the i-th stored realization when
`0 <= i < length` and Python `None` (here `none`) when `i` is negative or
at least the length. -/
theorem results_get_spec {α : Type} (xs : List α) (i : ℤ) :
    Results.get xs i =
      if 0 ≤ i ∧ i < xs.length then xs.get? i.toNat else none := by
  have h := results_getAux_spec xs 0 i
  simpa [Results.get] using h
